import Mathlib

/-
Verification of the bitrate arbitration engine declared in
src/webrtc/call/bitrate_allocator.h (class BitrateAllocator).  The repository
contains only the header: every method body is absent, so the operations are
modelled from the specification (spec.md), faithful to its words; each such
definition carries a doc comment beginning "Modelled from the spec:".  The
ObserverConfig record and its constructor are taken directly from the header
(lines 108-128), as are the declared signatures and contract comments.
-/

namespace BitrateAllocator

/-- Modelled from the spec: the fixed absolute floor of the hysteresis
re-activation margin (spec 4.4, 9).  The body holding the constant is not in
src/; the spec leaves the exact value tunable, chosen here as 20000 bps. -/
def kMinToggleBitrateBps : Nat := 20000

/-- Modelled from the spec: the bounded headroom multiplier scaling
`pad_up_bitrate_bps` in the Max-Rate tier (spec 4.2 tier 4, 9).  The body
holding the constant is not in src/; tunable, chosen here as 2. -/
def kHeadroomMultiplier : Nat := 2

/-- Per-stream configuration and running state, from
src/webrtc/call/bitrate_allocator.h lines 108-128 (`ObserverConfig`, whose
`TrackConfig` base carries the bounds, the enforce flag and the track id).
`observer` is the opaque callback handle (the identity key), modelled as a
`Nat`; `allocated_bitrate_bps` is the signed `int64_t` whose `-1` sentinel
means no allocation has happened yet; `media_ratio` is the `double` field
modelled as a rational. -/
structure ObserverConfig where
  observer : Nat
  min_bitrate_bps : Nat
  max_bitrate_bps : Nat
  pad_up_bitrate_bps : Nat
  enforce_min_bitrate : Bool
  track_id : String
  allocated_bitrate_bps : Int
  media_ratio : Rat
  deriving DecidableEq

/-- The `ObserverConfig` constructor from src/webrtc/call/bitrate_allocator.h
lines 109-122: it stores the six registration arguments and initializes
`allocated_bitrate_bps` to the sentinel `-1` and `media_ratio` to `1.0`. -/
def mkObserverConfig (observer min_bitrate_bps max_bitrate_bps pad_up_bitrate_bps : Nat)
    (enforce_min_bitrate : Bool) (track_id : String) : ObserverConfig :=
  ⟨observer, min_bitrate_bps, max_bitrate_bps, pad_up_bitrate_bps, enforce_min_bitrate,
   track_id, -1, 1⟩

/-- Sum of a list of bitrates. -/
def sumList : List Nat → Nat
  | [] => 0
  | x :: xs => x + sumList xs

/-- Sum of the registered observers' minimum bitrates. -/
def sumMin (registry : List ObserverConfig) : Nat :=
  sumList (registry.map (·.min_bitrate_bps))

/-- Sum of the registered observers' maximum bitrates. -/
def sumMax (registry : List ObserverConfig) : Nat :=
  sumList (registry.map (·.max_bitrate_bps))

/-- Sum of the registered observers' padding targets. -/
def sumPad (registry : List ObserverConfig) : Nat :=
  sumList (registry.map (·.pad_up_bitrate_bps))

/-- Modelled from the spec: the hysteresis margin added to a paused observer's
minimum (spec 4.4) - a fractional percentage of the minimum with a fixed
absolute floor, so it is always positive. -/
def hysteresisMargin (m : Nat) : Nat := max (m / 10) kMinToggleBitrateBps

/-- Modelled from the spec: `BitrateAllocator::MinBitrateWithHysteresis`
(declared at src/webrtc/call/bitrate_allocator.h lines 150-153, body absent;
spec 4.4).  An observer whose last allocation was 0 (paused) has its effective
minimum inflated by the margin; otherwise the plain minimum is used.  The `-1`
sentinel of a fresh observer is not 0, so a fresh observer is not paused. -/
def MinBitrateWithHysteresis (c : ObserverConfig) : Nat :=
  if c.allocated_bitrate_bps = 0 then
    c.min_bitrate_bps + hysteresisMargin c.min_bitrate_bps
  else c.min_bitrate_bps

/-- One observer's view inside the even-distribution primitive: its cap, its
current eligibility, and its running allocation. -/
structure Slot where
  cap : Nat
  elig : Bool
  alloc : Nat
  deriving DecidableEq

/-- Number of still-eligible observers. -/
def countElig (slots : List Slot) : Nat := slots.countP (·.elig)

/-- Total allocation currently recorded in the slots. -/
def allocSum (slots : List Slot) : Nat := sumList (slots.map (·.alloc))

/-- Total of the slots' caps. -/
def capSum (slots : List Slot) : Nat := sumList (slots.map (·.cap))

/-- Modelled from the spec: one pass of the even-distribution loop (spec 4.3).
Every eligible observer, in registry order, receives `share` plus one extra
unit while `bonus` fractional-remainder units last; an observer whose new
total would exceed its cap is clamped to the cap, removed from the eligible
set, and its unspent amount is accumulated for redistribution. -/
def distPass (share : Nat) : Nat → List Slot → List Slot × Nat
  | _, [] => ([], 0)
  | bonus, s :: rest =>
    if s.elig then
      let b := if 0 < bonus then 1 else 0
      let tentative := s.alloc + share + b
      let r := distPass share (bonus - b) rest
      if s.cap < tentative then (⟨s.cap, false, s.cap⟩ :: r.1, r.2 + (tentative - s.cap))
      else (⟨s.cap, true, tentative⟩ :: r.1, r.2)
    else
      let r := distPass share bonus rest
      (s :: r.1, r.2)

/-- Modelled from the spec: the iterative redistribution loop of the
even-distribution primitive (spec 4.3), with an explicit fuel bound.  Each
iteration splits the remaining bitrate equally among the eligible observers
(quotient as the common share, the remainder handed out one unit at a time in
registry order) and carries clamped-off surplus into the next iteration.  The
loop stops when the remaining bitrate reaches zero or no eligible observer is
left. -/
def distLoop : Nat → List Slot → Nat → List Slot × Nat
  | 0, slots, remaining => (slots, remaining)
  | fuel + 1, slots, remaining =>
    if remaining = 0 ∨ countElig slots = 0 then (slots, remaining)
    else
      let n := countElig slots
      let p := distPass (remaining / n) (remaining % n) slots
      distLoop fuel p.1 p.2

/-- Modelled from the spec: the initial eligible set of the even-distribution
primitive (spec 4.3) - either every observer, or only those with a nonzero
current allocation, depending on `include_zero_allocations`. -/
def mkSlots (include_zero_allocations : Bool) : List Nat → List Nat → List Slot
  | cap :: caps, a :: rest =>
    ⟨cap, include_zero_allocations || decide (a ≠ 0), a⟩ ::
      mkSlots include_zero_allocations caps rest
  | _, _ => []

/-- The even-distribution loop run with enough fuel (one more than the number
of eligible observers) to reach its exit condition; returns the final slots
and the final undistributed remainder. -/
def distRun (remaining : Nat) (include_zero_allocations : Bool) (caps alloc : List Nat) :
    List Slot × Nat :=
  let slots := mkSlots include_zero_allocations caps alloc
  distLoop (countElig slots + 1) slots remaining

/-- Modelled from the spec: `BitrateAllocator::DistributeBitrateEvenly`
(declared at src/webrtc/call/bitrate_allocator.h lines 158-161, body absent;
spec 4.3).  `caps` is the per-observer allowed maximum, already scaled by the
tier's multiplier (the spec's `max_multiplier x observer_cap`). -/
def DistributeBitrateEvenly (remaining : Nat) (include_zero_allocations : Bool)
    (caps alloc : List Nat) : List Nat :=
  ((distRun remaining include_zero_allocations caps alloc).1).map (·.alloc)

/-- Modelled from the spec: `BitrateAllocator::ZeroRateAllocation` (declared at
src/webrtc/call/bitrate_allocator.h line 143, body absent; spec 4.2 tier 1):
every observer is allocated 0. -/
def ZeroRateAllocation (registry : List ObserverConfig) : List Nat :=
  registry.map (fun _ => 0)

/-- Modelled from the spec: the first phase of the Low-Rate tier (spec 4.2
tier 2).  Observers with `enforce_min_bitrate = true` are granted their
minimum in registry order, consuming the budget until exhausted; once the
budget cannot cover a minimum the boundary observer receives what is left and
later enforced observers receive 0; non-enforced observers receive 0 here. -/
def LowRateP1 : List ObserverConfig → Nat → List Nat × Nat
  | [], remaining => ([], remaining)
  | c :: cs, remaining =>
    if c.enforce_min_bitrate then
      let g := min remaining c.min_bitrate_bps
      let r := LowRateP1 cs (remaining - g)
      (g :: r.1, r.2)
    else
      let r := LowRateP1 cs remaining
      (0 :: r.1, r.2)

/-- Modelled from the spec: the second phase of the Low-Rate tier (spec 4.2
tier 2, 4.4).  Each non-enforced observer, in registry order, is granted its
effective (hysteresis-adjusted) minimum when the remaining budget covers it
and 0 otherwise; enforced observers keep their phase-one grant. -/
def LowRateP2 : List ObserverConfig → List Nat → Nat → List Nat × Nat
  | c :: cs, a :: rest, remaining =>
    if c.enforce_min_bitrate then
      let r := LowRateP2 cs rest remaining
      (a :: r.1, r.2)
    else
      let req := MinBitrateWithHysteresis c
      if req ≤ remaining then
        let r := LowRateP2 cs rest (remaining - req)
        (req :: r.1, r.2)
      else
        let r := LowRateP2 cs rest remaining
        (0 :: r.1, r.2)
  | _, _, remaining => ([], remaining)

/-- Modelled from the spec: `BitrateAllocator::LowRateAllocation` (declared at
src/webrtc/call/bitrate_allocator.h line 144, body absent; spec 4.2 tier 2):
enforced minimums first, then non-enforced observers gated by the hysteresis
tracker. -/
def LowRateAllocation (registry : List ObserverConfig) (bitrate : Nat) : List Nat :=
  let p1 := LowRateP1 registry bitrate
  (LowRateP2 registry p1.1 p1.2).1

/-- Modelled from the spec: `BitrateAllocator::NormalRateAllocation` (declared
at src/webrtc/call/bitrate_allocator.h lines 145-146, body absent; spec 4.2
tier 3): every observer first receives its own minimum, and the remainder is
handed out by the even-distribution primitive across all observers (including
currently zero-allocated ones), capped at each observer's maximum. -/
def NormalRateAllocation (registry : List ObserverConfig) (bitrate sum_min_bitrates : Nat) :
    List Nat :=
  DistributeBitrateEvenly (bitrate - sum_min_bitrates) true
    (registry.map (·.max_bitrate_bps)) (registry.map (·.min_bitrate_bps))

/-- Modelled from the spec: the Max-Rate tier cap of one observer (spec 4.2
tier 4): allocations may exceed `max_bitrate_bps` by at most the observer's
`pad_up_bitrate_bps` scaled by the bounded headroom multiplier.  (Spec 4.3's
literal `max_multiplier x observer_cap` with `observer_cap` read as the raw
`pad_up_bitrate_bps` would clamp an observer below the `max_bitrate_bps` floor
that tier 4 has just granted, contradicting spec 4.2 tier 4 and section 8;
the surplus-on-top reading used here is the coherent one.) -/
def maxRateCap (c : ObserverConfig) : Nat :=
  c.max_bitrate_bps + kHeadroomMultiplier * c.pad_up_bitrate_bps

/-- Total of the Max-Rate tier caps. -/
def sumMaxCaps (registry : List ObserverConfig) : Nat := sumList (registry.map maxRateCap)

/-- Modelled from the spec: `BitrateAllocator::MaxRateAllocation` (declared at
src/webrtc/call/bitrate_allocator.h lines 147-148, body absent; spec 4.2
tier 4): every observer receives its maximum, and the remainder is handed out
by the even-distribution primitive, permitting allocations above the maximum
up to the headroom-scaled padding target. -/
def MaxRateAllocation (registry : List ObserverConfig) (bitrate sum_max_bitrates : Nat) :
    List Nat :=
  DistributeBitrateEvenly (bitrate - sum_max_bitrates) true
    (registry.map maxRateCap) (registry.map (·.max_bitrate_bps))

/-- Modelled from the spec: `BitrateAllocator::EnoughBitrateForAllObservers`
(declared at src/webrtc/call/bitrate_allocator.h lines 162-163, body absent)
is "the single predicate (`T >= sum of minimums`) that distinguishes tier 2
from tiers 3/4" (spec 4.2). -/
def EnoughBitrateForAllObservers (bitrate sum_min_bitrates : Nat) : Bool :=
  decide (sum_min_bitrates ≤ bitrate)

/-- Modelled from the spec: `BitrateAllocator::AllocateBitrates` (declared at
src/webrtc/call/bitrate_allocator.h line 141, body absent; spec 4.2): tier
dispatch on the target bitrate against the sums of minimums and maximums.
The allocation is returned as a list parallel to the registry (the source's
map keyed by the unique observer handles, in registry order). -/
def AllocateBitrates (registry : List ObserverConfig) (bitrate : Nat) : List Nat :=
  if registry.isEmpty then []
  else if bitrate = 0 then ZeroRateAllocation registry
  else if EnoughBitrateForAllObservers bitrate (sumMin registry) then
    (if bitrate < sumMax registry then NormalRateAllocation registry bitrate (sumMin registry)
     else MaxRateAllocation registry bitrate (sumMax registry))
  else LowRateAllocation registry bitrate

/-- The engine's aggregate state (src/webrtc/call/bitrate_allocator.h lines
165-181; the clock, logging timestamp and strategy slot are not modelled).
The registry is the insertion-ordered `bitrate_observer_configs_`. -/
structure Engine where
  registry : List ObserverConfig
  last_bitrate_bps : Nat
  last_non_zero_bitrate_bps : Nat
  last_fraction_loss : Nat
  last_rtt : Int
  last_bwe_period_ms : Int
  num_pause_events : Nat
  total_requested_min_bitrate : Nat
  total_requested_padding_bitrate : Nat
  deriving DecidableEq

/-- Synchronous collaborator calls issued by an engine operation: the
per-observer `OnBitrateUpdated` callback and the limit collaborator's
`OnAllocationLimitsChanged` notification (spec 6). -/
inductive EngineEvent where
  | bitrateUpdated (observer allocated_bitrate_bps fraction_loss : Nat) (rtt bwe_period_ms : Int)
  | limitsChanged (min_send_bitrate_bps max_padding_bitrate_bps : Nat)
  deriving DecidableEq

/-- Whether an event is an observer `OnBitrateUpdated` callback. -/
def isBitrateUpdatedEvent : EngineEvent → Bool
  | .bitrateUpdated _ _ _ _ _ => true
  | _ => false

/-- Modelled from the spec: the per-observer bookkeeping done by
`OnNetworkChanged` (spec 4.6): record the new allocation and refresh
`media_ratio = (allocated - protection) / allocated` from the callback's
protection-bitrate return value (`protEnv`), keeping the previous ratio when
the allocation is zero. -/
def updateConfig (protEnv : Nat → Nat → Nat) (c : ObserverConfig) (a : Nat) : ObserverConfig :=
  { c with
      allocated_bitrate_bps := (a : Int),
      media_ratio :=
        if 0 < a then ((a - min (protEnv c.observer a) a : Nat) : Rat) / (a : Rat)
        else ObserverConfig.media_ratio c }

/-- Modelled from the spec: the pause-event counter increment (spec 4.4):
each transition from a nonzero allocation to zero attributable to
insufficient bandwidth (target positive). -/
def pauseEvents (registry : List ObserverConfig) (allocation : List Nat) (target : Nat) : Nat :=
  if 0 < target then
    (registry.zip allocation).countP
      (fun p => decide (0 < p.1.allocated_bitrate_bps) && decide (p.2 = 0))
  else 0

/-- Modelled from the spec: `BitrateAllocator::OnNetworkChanged` (declared at
src/webrtc/call/bitrate_allocator.h lines 67-70, body absent; spec 4.6):
stores the inputs, computes the allocation via the active tier, invokes every
observer's update callback in registry order with the shared loss/RTT/period
context, and updates the per-observer running state.  Returns the new engine
state, the per-observer allocation, and the emitted callback events. -/
def OnNetworkChanged (protEnv : Nat → Nat → Nat) (e : Engine)
    (target_bitrate_bps fraction_loss : Nat) (rtt bwe_period_ms : Int) :
    Engine × List Nat × List EngineEvent :=
  let allocation := AllocateBitrates e.registry target_bitrate_bps
  let events := List.zipWith
    (fun c a => EngineEvent.bitrateUpdated c.observer a fraction_loss rtt bwe_period_ms)
    e.registry allocation
  ({ e with
      registry := List.zipWith (updateConfig protEnv) e.registry allocation,
      last_bitrate_bps := target_bitrate_bps,
      last_non_zero_bitrate_bps :=
        if 0 < target_bitrate_bps then target_bitrate_bps else e.last_non_zero_bitrate_bps,
      last_fraction_loss := fraction_loss,
      last_rtt := rtt,
      last_bwe_period_ms := bwe_period_ms,
      num_pause_events :=
        e.num_pause_events + pauseEvents e.registry allocation target_bitrate_bps },
   allocation, events)

/-- Whether the handle is registered (the source's `FindObserverConfig`
succeeding, src/webrtc/call/bitrate_allocator.h lines 135-136). -/
def containsObserver (registry : List ObserverConfig) (observer : Nat) : Bool :=
  registry.any (fun c => c.observer == observer)

/-- Modelled from the spec: the in-place settings update performed by
`AddObserver` on an already-registered handle, per the declaration's contract
comment (src/webrtc/call/bitrate_allocator.h line 74: the observer updates
bitrates if already in use): the first matching entry's bounds, padding
target and enforce flag are replaced; its running state is kept. -/
def updateObserverConfig (observer min_bitrate_bps max_bitrate_bps pad_up_bitrate_bps : Nat)
    (enforce_min_bitrate : Bool) : List ObserverConfig → List ObserverConfig
  | [] => []
  | c :: cs =>
    if c.observer = observer then
      { c with
          min_bitrate_bps := min_bitrate_bps, max_bitrate_bps := max_bitrate_bps,
          pad_up_bitrate_bps := pad_up_bitrate_bps,
          enforce_min_bitrate := enforce_min_bitrate } :: cs
    else
      c :: updateObserverConfig observer min_bitrate_bps max_bitrate_bps pad_up_bitrate_bps
        enforce_min_bitrate cs

/-- Modelled from the spec: `BitrateAllocator::AddObserver` (declared at
src/webrtc/call/bitrate_allocator.h lines 84-89, body absent; spec 4.1).
Registry effect and limits recomputation only: a handle already in use has
its configuration updated in place (per the declaration's contract comment,
header line 74); otherwise a fresh entry is appended at the end.  The
aggregate limits are recomputed either way.  The synthesized initial callback
for the new observer is outside the claims and not modelled. -/
def AddObserver (e : Engine) (observer min_bitrate_bps max_bitrate_bps pad_up_bitrate_bps : Nat)
    (enforce_min_bitrate : Bool) (track_id : String) : Engine :=
  let registry :=
    if containsObserver e.registry observer then
      updateObserverConfig observer min_bitrate_bps max_bitrate_bps pad_up_bitrate_bps
        enforce_min_bitrate e.registry
    else
      e.registry ++ [mkObserverConfig observer min_bitrate_bps max_bitrate_bps
        pad_up_bitrate_bps enforce_min_bitrate track_id]
  { e with
      registry := registry,
      total_requested_min_bitrate := sumMin registry,
      total_requested_padding_bitrate := sumPad registry }

/-- Erase the first registry entry with the given handle. -/
def eraseObserverConfig (observer : Nat) : List ObserverConfig → List ObserverConfig
  | [] => []
  | c :: cs => if c.observer = observer then cs else c :: eraseObserverConfig observer cs

/-- Modelled from the spec: `BitrateAllocator::RemoveObserver` (declared at
src/webrtc/call/bitrate_allocator.h lines 91-93, body absent; spec 4.1): a
no-op on an absent handle; otherwise the entry is erased and the aggregate
limits are recomputed and republished to the limit collaborator.  No
allocation pass is re-run and no observer callback is invoked. -/
def RemoveObserver (e : Engine) (observer : Nat) : Engine × List EngineEvent :=
  if containsObserver e.registry observer then
    let registry := eraseObserverConfig observer e.registry
    ({ e with
        registry := registry,
        total_requested_min_bitrate := sumMin registry,
        total_requested_padding_bitrate := sumPad registry },
     [EngineEvent.limitsChanged (sumMin registry) (sumPad registry)])
  else (e, [])

/-- Sum of the allocations handed to enforced-minimum observers. -/
def sumEnforcedAlloc : List ObserverConfig → List Nat → Nat
  | c :: cs, a :: rest =>
    (if c.enforce_min_bitrate then a else 0) + sumEnforcedAlloc cs rest
  | _, _ => 0

/-- Total bitrate granted by the Low-Rate tier's second phase out of a given
budget (a function of the registry and the budget alone). -/
def p2grant : List ObserverConfig → Nat → Nat
  | [], _ => 0
  | c :: cs, remaining =>
    if c.enforce_min_bitrate then p2grant cs remaining
    else if MinBitrateWithHysteresis c ≤ remaining then
      MinBitrateWithHysteresis c + p2grant cs (remaining - MinBitrateWithHysteresis c)
    else p2grant cs remaining

/-- Sum of the minimums of the enforced-minimum observers. -/
def sumEnfMin : List ObserverConfig → Nat
  | [] => 0
  | c :: cs => (if c.enforce_min_bitrate then c.min_bitrate_bps else 0) + sumEnfMin cs

/-- Evolution relation of one slot across the even-distribution loop: the cap
never changes, an ineligible slot is frozen, a slot that loses eligibility
was clamped to its cap, and the allocation stays between the original
allocation-or-cap floor and the original allocation-or-cap ceiling. -/
def SlotEvo (s t : Slot) : Prop :=
  t.cap = s.cap ∧ (s.elig = false → t = s) ∧
  (t.elig = false → t.alloc = t.cap ∨ t = s) ∧
  min s.alloc s.cap ≤ t.alloc ∧ t.alloc ≤ max s.alloc s.cap

/-- Two observer configurations agreeing on every field the allocation tiers
read (identity, bounds, padding target, enforce flag); the running state
mutated by an allocation pass is not constrained. -/
def StaticEq (c c' : ObserverConfig) : Prop :=
  c'.observer = c.observer ∧ c'.min_bitrate_bps = c.min_bitrate_bps ∧
  c'.max_bitrate_bps = c.max_bitrate_bps ∧ c'.pad_up_bitrate_bps = c.pad_up_bitrate_bps ∧
  c'.enforce_min_bitrate = c.enforce_min_bitrate

/-- A protection-callback environment that always reports zero protection. -/
def envZero : Nat → Nat → Nat := fun _ _ => 0

/-- Fixture: a non-enforced observer currently active (last allocation 1). -/
def obsActive : ObserverConfig := ⟨0, 30000, 900000, 0, false, "A", 1, 1⟩

/-- Fixture: a non-enforced observer currently paused (last allocation 0). -/
def obsPaused : ObserverConfig := ⟨1, 0, 900000, 0, false, "B", 0, 1⟩

/-- Fixture engine holding the active and the paused observer. -/
def engFix : Engine := ⟨[obsActive, obsPaused], 0, 0, 0, 0, 0, 0, 0, 0⟩

/-- Fixture: an observer whose declared minimum exceeds its maximum; the
`min <= max` caller contract of spec section 3 is not enforced internally
(spec section 7), so such registries reach the allocator. -/
def obsMinOverMax : ObserverConfig := mkObserverConfig 0 100 10 0 true "x"

/-- Fixture: a well-formed enforced observer. -/
def obsEnforced : ObserverConfig := mkObserverConfig 2 100 300 20 true "C"

/-- Fixture: a well-formed non-enforced observer. -/
def obsSoft : ObserverConfig := mkObserverConfig 3 50 400 0 false "D"

/-- Fixture engine holding one enforced observer, for the registration
claims. -/
def engReg : Engine := ⟨[mkObserverConfig 0 100 400 0 true "a"], 0, 0, 0, 0, 0, 0, 100, 0⟩

/-! ### Basic lemmas -/

theorem sumList_append (xs ys : List Nat) :
    sumList (xs ++ ys) = sumList xs + sumList ys := by
  induction xs with
  | nil => simp [sumList]
  | cons x xs ih => simp [sumList, ih]; omega

theorem sumList_map_zero {α : Type} (l : List α) :
    sumList (l.map (fun _ => 0)) = 0 := by
  induction l with
  | nil => rfl
  | cons x xs ih => simpa [sumList] using ih

theorem hysteresisMargin_pos (m : Nat) : 0 < hysteresisMargin m := by
  unfold hysteresisMargin kMinToggleBitrateBps
  omega

theorem minBitrate_not_paused (c : ObserverConfig) (h : c.allocated_bitrate_bps ≠ 0) :
    MinBitrateWithHysteresis c = c.min_bitrate_bps := by
  unfold MinBitrateWithHysteresis
  simp [h]

theorem minBitrate_paused (c : ObserverConfig) (h : c.allocated_bitrate_bps = 0) :
    MinBitrateWithHysteresis c = c.min_bitrate_bps + hysteresisMargin c.min_bitrate_bps := by
  unfold MinBitrateWithHysteresis
  simp [h]

theorem forall₂_compose {α β γ : Type} {R : α → β → Prop} {S : β → γ → Prop}
    {T : α → γ → Prop} (hT : ∀ a b c, R a b → S b c → T a c)
    {l₁ : List α} {l₂ : List β} {l₃ : List γ}
    (h₁ : List.Forall₂ R l₁ l₂) (h₂ : List.Forall₂ S l₂ l₃) : List.Forall₂ T l₁ l₃ := by
  induction h₁ generalizing l₃ with
  | nil => cases h₂; exact List.Forall₂.nil
  | cons hab _ ih =>
    cases h₂ with
    | cons hbc h₂t => exact List.Forall₂.cons (hT _ _ _ hab hbc) (ih h₂t)

theorem forall₂_zip_mem {α β : Type} {R : α → β → Prop} {l₁ : List α} {l₂ : List β}
    (h : List.Forall₂ R l₁ l₂) {p : α × β} (hp : p ∈ l₁.zip l₂) : R p.1 p.2 := by
  rw [List.forall₂_iff_zip] at h
  exact h.2 hp

/-! ### Low-Rate tier lemmas -/

theorem lowRateP1_length (cs : List ObserverConfig) (rem : Nat) :
    (LowRateP1 cs rem).1.length = cs.length := by
  induction cs generalizing rem with
  | nil => rfl
  | cons c cs ih => by_cases h : c.enforce_min_bitrate <;> simp [LowRateP1, h, ih]

theorem lowRateP1_conserve (cs : List ObserverConfig) (rem : Nat) :
    sumList (LowRateP1 cs rem).1 + (LowRateP1 cs rem).2 = rem := by
  induction cs generalizing rem with
  | nil => simp [LowRateP1, sumList]
  | cons c cs ih =>
    by_cases h : c.enforce_min_bitrate
    · simp [LowRateP1, h, sumList]
      have := ih (rem - min rem c.min_bitrate_bps)
      omega
    · simp [LowRateP1, h, sumList]
      have := ih rem
      omega

theorem lowRateP1_sum (cs : List ObserverConfig) (rem : Nat) :
    sumList (LowRateP1 cs rem).1 = min rem (sumEnfMin cs) := by
  induction cs generalizing rem with
  | nil => simp [LowRateP1, sumList, sumEnfMin]
  | cons c cs ih =>
    by_cases h : c.enforce_min_bitrate
    · simp [LowRateP1, h, sumList, sumEnfMin]
      have := ih (rem - min rem c.min_bitrate_bps)
      omega
    · simp [LowRateP1, h, sumList, sumEnfMin]
      have := ih rem
      omega

theorem lowRateP1_rem (cs : List ObserverConfig) (rem : Nat) :
    (LowRateP1 cs rem).2 = rem - sumEnfMin cs := by
  have h1 := lowRateP1_conserve cs rem
  have h2 := lowRateP1_sum cs rem
  omega

theorem lowRateP1_enforced_le (cs : List ObserverConfig) (rem : Nat) :
    List.Forall₂ (fun c a => c.enforce_min_bitrate = true → a ≤ c.min_bitrate_bps)
      cs (LowRateP1 cs rem).1 := by
  induction cs generalizing rem with
  | nil => exact List.Forall₂.nil
  | cons c cs ih =>
    by_cases h : c.enforce_min_bitrate
    · simp only [LowRateP1, h, if_true]
      exact List.Forall₂.cons (fun _ => by omega) (ih _)
    · simp only [LowRateP1, h, if_false]
      exact List.Forall₂.cons (fun hh => by rw [hh] at h; exact absurd rfl h) (ih _)

theorem lowRateP1_full (cs : List ObserverConfig) (rem : Nat) (h : sumEnfMin cs ≤ rem) :
    List.Forall₂ (fun c a => c.enforce_min_bitrate = true → a = c.min_bitrate_bps)
      cs (LowRateP1 cs rem).1 := by
  induction cs generalizing rem with
  | nil => exact List.Forall₂.nil
  | cons c cs ih =>
    by_cases hc : c.enforce_min_bitrate
    · simp only [LowRateP1, hc, if_true]
      simp only [sumEnfMin, hc, if_true] at h
      have hmin : min rem c.min_bitrate_bps = c.min_bitrate_bps := by omega
      refine List.Forall₂.cons (fun _ => hmin) (ih _ ?_)
      rw [hmin]; omega
    · simp only [LowRateP1, hc, if_false]
      simp only [sumEnfMin, hc, if_false] at h
      refine List.Forall₂.cons (fun hh => by rw [hh] at hc; exact absurd rfl hc) (ih _ ?_)
      omega

theorem lowRateP1_nonenf_zero (cs : List ObserverConfig) (rem : Nat) :
    List.Forall₂ (fun c a => c.enforce_min_bitrate = false → a = 0)
      cs (LowRateP1 cs rem).1 := by
  induction cs generalizing rem with
  | nil => exact List.Forall₂.nil
  | cons c cs ih =>
    by_cases h : c.enforce_min_bitrate
    · simp only [LowRateP1, h, if_true]
      exact List.Forall₂.cons (fun hh => by rw [h] at hh; cases hh) (ih _)
    · simp only [LowRateP1, h, if_false]
      exact List.Forall₂.cons (fun _ => rfl) (ih _)

theorem lowRateP2_length (cs : List ObserverConfig) (gs : List Nat) (rem : Nat)
    (h : gs.length = cs.length) : (LowRateP2 cs gs rem).1.length = cs.length := by
  induction cs generalizing gs rem with
  | nil => simp [LowRateP2]
  | cons c cs ih =>
    cases gs with
    | nil => simp at h
    | cons g gt =>
      have ht : gt.length = cs.length := by simpa using h
      by_cases hc : c.enforce_min_bitrate
      · simp [LowRateP2, hc, ih gt _ ht]
      · by_cases hr : MinBitrateWithHysteresis c ≤ rem
        · simp [LowRateP2, hc, hr, ih gt _ ht]
        · simp [LowRateP2, hc, hr, ih gt _ ht]

theorem lowRateP2_sum (cs : List ObserverConfig) (gs : List Nat) (rem : Nat)
    (hz : List.Forall₂ (fun c a => c.enforce_min_bitrate = false → a = 0) cs gs) :
    sumList (LowRateP2 cs gs rem).1 = sumList gs + p2grant cs rem := by
  induction hz generalizing rem with
  | nil => simp [LowRateP2, sumList, p2grant]
  | @cons c g cs gt hza hzt ih =>
    by_cases hc : c.enforce_min_bitrate
    · simp [LowRateP2, hc, sumList, p2grant]
      have := ih rem
      omega
    · have hg : g = 0 := hza (by simpa using hc)
      subst hg
      by_cases hr : MinBitrateWithHysteresis c ≤ rem
      · simp [LowRateP2, hc, hr, sumList, p2grant]
        have := ih (rem - MinBitrateWithHysteresis c)
        omega
      · simp [LowRateP2, hc, hr, sumList, p2grant]
        have := ih rem
        omega

theorem p2grant_le (cs : List ObserverConfig) (rem : Nat) : p2grant cs rem ≤ rem := by
  induction cs generalizing rem with
  | nil => simp [p2grant]
  | cons c cs ih =>
    by_cases hc : c.enforce_min_bitrate
    · simpa [p2grant, hc] using ih rem
    · by_cases hr : MinBitrateWithHysteresis c ≤ rem
      · simp [p2grant, hc, hr]
        have := ih (rem - MinBitrateWithHysteresis c)
        omega
      · simpa [p2grant, hc, hr] using ih rem

theorem p2grant_mono (cs : List ObserverConfig) {r1 r2 : Nat} (h : r1 ≤ r2) :
    p2grant cs r1 ≤ p2grant cs r2 := by
  induction cs generalizing r1 r2 with
  | nil => simp [p2grant]
  | cons c cs ih =>
    by_cases hc : c.enforce_min_bitrate
    · simpa [p2grant, hc] using ih h
    · by_cases h1 : MinBitrateWithHysteresis c ≤ r1
      · have h2 : MinBitrateWithHysteresis c ≤ r2 := le_trans h1 h
        simp [p2grant, hc, h1, h2]
        have := ih (show r1 - MinBitrateWithHysteresis c ≤ r2 - MinBitrateWithHysteresis c by
          omega)
        omega
      · by_cases h2 : MinBitrateWithHysteresis c ≤ r2
        · simp [p2grant, hc, h1, h2]
          have ha := p2grant_le cs r1
          omega
        · simp [p2grant, hc, h1, h2]
          exact ih h

theorem lowRate_length (r : List ObserverConfig) (T : Nat) :
    (LowRateAllocation r T).length = r.length := by
  unfold LowRateAllocation
  exact lowRateP2_length r _ _ (lowRateP1_length r T)

theorem lowRate_total (r : List ObserverConfig) (T : Nat) :
    sumList (LowRateAllocation r T) =
      min T (sumEnfMin r) + p2grant r (T - sumEnfMin r) := by
  unfold LowRateAllocation
  rw [lowRateP2_sum r _ _ (lowRateP1_nonenf_zero r T), lowRateP1_sum, lowRateP1_rem]

theorem lowRate_total_le (r : List ObserverConfig) (T : Nat) :
    sumList (LowRateAllocation r T) ≤ T := by
  rw [lowRate_total]
  have := p2grant_le r (T - sumEnfMin r)
  omega

theorem lowRate_total_mono (r : List ObserverConfig) {T1 T2 : Nat} (h : T1 ≤ T2) :
    sumList (LowRateAllocation r T1) ≤ sumList (LowRateAllocation r T2) := by
  rw [lowRate_total, lowRate_total]
  have := p2grant_mono r (show T1 - sumEnfMin r ≤ T2 - sumEnfMin r by omega)
  omega

theorem lowRateP2_pointwise (cs : List ObserverConfig) (gs : List Nat) (rem B : Nat)
    (h : gs.length = cs.length) (hB : rem ≤ B) :
    List.Forall₂
      (fun c b => c.enforce_min_bitrate = false →
        b = 0 ∨ (b = MinBitrateWithHysteresis c ∧ MinBitrateWithHysteresis c ≤ B))
      cs (LowRateP2 cs gs rem).1 := by
  induction cs generalizing gs rem with
  | nil => cases gs <;> exact List.Forall₂.nil
  | cons c cs ih =>
    cases gs with
    | nil => simp at h
    | cons g gt =>
      have ht : gt.length = cs.length := by simpa using h
      by_cases hc : c.enforce_min_bitrate
      · simp only [LowRateP2, hc, if_true]
        exact List.Forall₂.cons (fun hh => by rw [hh] at hc; cases hc) (ih gt rem ht hB)
      · by_cases hr : MinBitrateWithHysteresis c ≤ rem
        · simp only [LowRateP2, hc, hr, if_true, if_false, Bool.false_eq_true, ite_true,
            ite_false]
          refine List.Forall₂.cons (fun _ => Or.inr ⟨rfl, le_trans hr hB⟩) ?_
          exact ih gt (rem - MinBitrateWithHysteresis c) ht (by omega)
        · simp only [LowRateP2, hc, hr, if_true, if_false, Bool.false_eq_true, ite_true,
            ite_false]
          exact List.Forall₂.cons (fun _ => Or.inl rfl) (ih gt rem ht hB)

theorem lowRateP2_enforced_pres {P : ObserverConfig → Nat → Prop} (cs : List ObserverConfig)
    (gs : List Nat) (rem : Nat)
    (hg : List.Forall₂ (fun c a => c.enforce_min_bitrate = true → P c a) cs gs) :
    List.Forall₂ (fun c b => c.enforce_min_bitrate = true → P c b)
      cs (LowRateP2 cs gs rem).1 := by
  induction hg generalizing rem with
  | nil => exact List.Forall₂.nil
  | @cons c g cs gt hpa hpt ih =>
    by_cases hc : c.enforce_min_bitrate
    · simp only [LowRateP2, hc, if_true]
      exact List.Forall₂.cons hpa (ih _)
    · by_cases hr : MinBitrateWithHysteresis c ≤ rem
      · simp only [LowRateP2, hc, hr, if_true, if_false, Bool.false_eq_true, ite_true,
          ite_false]
        exact List.Forall₂.cons (fun hh => absurd hh hc) (ih _)
      · simp only [LowRateP2, hc, hr, if_true, if_false, Bool.false_eq_true, ite_true,
          ite_false]
        exact List.Forall₂.cons (fun hh => absurd hh hc) (ih _)

theorem sumEnforcedAlloc_le (cs : List ObserverConfig) (gs : List Nat) :
    sumEnforcedAlloc cs gs ≤ sumList gs := by
  induction cs generalizing gs with
  | nil => simp [sumEnforcedAlloc]
  | cons c cs ih =>
    cases gs with
    | nil => simp [sumEnforcedAlloc]
    | cons g gt =>
      have := ih gt
      by_cases hc : c.enforce_min_bitrate <;> simp [sumEnforcedAlloc, hc, sumList] <;> omega

theorem lowRateP2_enforced_sum (cs : List ObserverConfig) (gs : List Nat) (rem : Nat)
    (h : gs.length = cs.length) :
    sumEnforcedAlloc cs (LowRateP2 cs gs rem).1 = sumEnforcedAlloc cs gs := by
  induction cs generalizing gs rem with
  | nil => cases gs <;> simp [LowRateP2, sumEnforcedAlloc]
  | cons c cs ih =>
    cases gs with
    | nil => simp at h
    | cons g gt =>
      have ht : gt.length = cs.length := by simpa using h
      by_cases hc : c.enforce_min_bitrate
      · simp [LowRateP2, hc, sumEnforcedAlloc, ih gt rem ht]
      · by_cases hr : MinBitrateWithHysteresis c ≤ rem
        · simp [LowRateP2, hc, hr, sumEnforcedAlloc,
            ih gt (rem - MinBitrateWithHysteresis c) ht]
        · simp [LowRateP2, hc, hr, sumEnforcedAlloc, ih gt rem ht]

/-! ### Claim C1 -/

/-- C1: for every registry, the allocation produced by `OnNetworkChanged` at
target bitrate 0 (the Zero-Rate tier) assigns exactly 0 to every registered
observer, regardless of minimums, enforce flags or pause state. -/
theorem zeroRate_allocates_zero (registry : List ObserverConfig) :
    ∀ x ∈ AllocateBitrates registry 0, x = 0 := by
  intro x hx
  unfold AllocateBitrates at hx
  by_cases he : registry.isEmpty
  · simp [he] at hx
  · simp only [he, if_false, if_true, Bool.false_eq_true, ite_true, ite_false,
      ZeroRateAllocation, List.mem_map] at hx
    obtain ⟨a, _, hax⟩ := hx
    exact hax.symm

/-- Witness for C1 at a concrete two-observer registry (one enforced, one
currently paused). -/
theorem zeroRate_allocates_zero_witness : (0 : Nat) = 0 :=
  zeroRate_allocates_zero [obsEnforced, obsPaused] 0 (by decide)

theorem lowRateP1_get? (cs : List ObserverConfig) (rem : Nat) :
    ∀ (i : Nat) (c : ObserverConfig), cs.get? i = some c →
      (LowRateP1 cs rem).1.get? i =
        some (if c.enforce_min_bitrate then
          min c.min_bitrate_bps (rem - sumEnfMin (cs.take i)) else 0) := by
  induction cs generalizing rem with
  | nil => intro i c hc; simp at hc
  | cons c0 ct ih =>
    intro i c hc
    cases i with
    | zero =>
      rw [List.get?_cons_zero] at hc
      obtain rfl : c0 = c := by injection hc
      by_cases h0 : c0.enforce_min_bitrate
      · simp only [LowRateP1]
        rw [if_pos h0, List.get?_cons_zero]
        simp only [List.take_zero, sumEnfMin, h0, if_true]
        congr 1
        omega
      · simp only [LowRateP1]
        rw [if_neg h0, List.get?_cons_zero]
        simp only [h0, if_false, Bool.false_eq_true, ite_false]
    | succ i =>
      rw [List.get?_cons_succ] at hc
      by_cases h0 : c0.enforce_min_bitrate
      · simp only [LowRateP1]
        rw [if_pos h0, List.get?_cons_succ,
          ih (rem - min rem c0.min_bitrate_bps) i c hc,
          List.take_succ_cons]
        simp only [sumEnfMin, h0, if_true]
        by_cases he : c.enforce_min_bitrate
        · simp only [he, if_true]
          congr 1
          omega
        · simp only [he, if_false, Bool.false_eq_true, ite_false]
      · simp only [LowRateP1]
        rw [if_neg h0, List.get?_cons_succ, ih rem i c hc, List.take_succ_cons]
        simp only [sumEnfMin, h0, if_false, Bool.false_eq_true, ite_false, Nat.zero_add]

theorem lowRateP2_enforced_get? (cs : List ObserverConfig) (gs : List Nat) (rem : Nat)
    (hlen : gs.length = cs.length) :
    ∀ (i : Nat) (c : ObserverConfig), cs.get? i = some c → c.enforce_min_bitrate = true →
      (LowRateP2 cs gs rem).1.get? i = gs.get? i := by
  induction cs generalizing gs rem with
  | nil => intro i c hc; simp at hc
  | cons c0 ct ih =>
    cases gs with
    | nil => simp at hlen
    | cons g gt =>
      have hlt : gt.length = ct.length := by simpa using hlen
      intro i c hc henf
      cases i with
      | zero =>
        rw [List.get?_cons_zero] at hc
        obtain rfl : c0 = c := by injection hc
        simp only [LowRateP2]
        rw [if_pos henf, List.get?_cons_zero, List.get?_cons_zero]
      | succ i =>
        rw [List.get?_cons_succ] at hc
        by_cases h0 : c0.enforce_min_bitrate
        · simp only [LowRateP2]
          rw [if_pos h0, List.get?_cons_succ, List.get?_cons_succ]
          exact ih gt rem hlt i c hc henf
        · simp only [LowRateP2]
          rw [if_neg h0]
          by_cases hr : MinBitrateWithHysteresis c0 ≤ rem
          · rw [if_pos hr, List.get?_cons_succ, List.get?_cons_succ]
            exact ih gt (rem - MinBitrateWithHysteresis c0) hlt i c hc henf
          · rw [if_neg hr, List.get?_cons_succ, List.get?_cons_succ]
            exact ih gt rem hlt i c hc henf

theorem lowRate_enforced_get? (r : List ObserverConfig) (T : Nat) (i : Nat)
    (c : ObserverConfig) (hc : r.get? i = some c) (henf : c.enforce_min_bitrate = true) :
    (LowRateAllocation r T).get? i =
      some (min c.min_bitrate_bps (T - sumEnfMin (r.take i))) := by
  unfold LowRateAllocation
  rw [lowRateP2_enforced_get? r (LowRateP1 r T).1 (LowRateP1 r T).2
      (lowRateP1_length r T) i c hc henf,
    lowRateP1_get? r T i c hc]
  simp only [henf, if_true]

/-! ### Claim C3 -/

/-- C3: in the Low-Rate tier (`0 < T <` the sum of minimums): the sum of
bitrates given to enforced-minimum observers never exceeds `T`; each enforced
observer receives at most its minimum; enforced observers are granted their
minimums in registry order, consuming `T` until exhausted - the enforced
observer at position `i` receives exactly
`min(its minimum, T - sum of the enforced minimums before position i)`, hence
its full minimum while the budget lasts and 0 once `T` is exhausted; and no
non-enforced observer receives a nonzero allocation unless every enforced
observer received its full minimum. -/
theorem lowRate_enforced_first (registry : List ObserverConfig) (T : Nat)
    (hT : 0 < T) (hlt : T < sumMin registry) :
    sumEnforcedAlloc registry (LowRateAllocation registry T) ≤ T ∧
    (∀ p ∈ registry.zip (LowRateAllocation registry T),
        p.1.enforce_min_bitrate = true → p.2 ≤ p.1.min_bitrate_bps) ∧
    (∀ (i : Nat) (c : ObserverConfig), registry.get? i = some c →
        c.enforce_min_bitrate = true →
        (LowRateAllocation registry T).get? i =
          some (min c.min_bitrate_bps (T - sumEnfMin (registry.take i))) ∧
        (sumEnfMin (registry.take i) + c.min_bitrate_bps ≤ T →
          (LowRateAllocation registry T).get? i = some c.min_bitrate_bps) ∧
        (T ≤ sumEnfMin (registry.take i) →
          (LowRateAllocation registry T).get? i = some 0)) ∧
    ((∃ q ∈ registry.zip (LowRateAllocation registry T),
        q.1.enforce_min_bitrate = true ∧ q.2 < q.1.min_bitrate_bps) →
      ∀ p ∈ registry.zip (LowRateAllocation registry T),
        p.1.enforce_min_bitrate = false → p.2 = 0) := by
  refine ⟨?_, ?_, ?_, ?_⟩
  · have h1 : sumEnforcedAlloc registry (LowRateAllocation registry T) =
        sumEnforcedAlloc registry (LowRateP1 registry T).1 := by
      unfold LowRateAllocation
      exact lowRateP2_enforced_sum registry _ _ (lowRateP1_length registry T)
    have h2 := sumEnforcedAlloc_le registry (LowRateP1 registry T).1
    have h3 := lowRateP1_sum registry T
    omega
  · intro p hp henf
    have hall : List.Forall₂
        (fun c b => c.enforce_min_bitrate = true → b ≤ c.min_bitrate_bps)
        registry (LowRateAllocation registry T) := by
      unfold LowRateAllocation
      exact lowRateP2_enforced_pres registry _ _ (lowRateP1_enforced_le registry T)
    exact forall₂_zip_mem hall hp henf
  · intro i c hc henf
    have hchar := lowRate_enforced_get? registry T i c hc henf
    refine ⟨hchar, fun hfull => ?_, fun hexh => ?_⟩
    · rw [hchar]
      congr 1
      omega
    · rw [hchar]
      congr 1
      omega
  · intro hq p hp hnenf
    obtain ⟨q, hqmem, hqenf, hqlt⟩ := hq
    by_cases hE : sumEnfMin registry ≤ T
    · exfalso
      have hall : List.Forall₂
          (fun c b => c.enforce_min_bitrate = true → b = c.min_bitrate_bps)
          registry (LowRateAllocation registry T) := by
        unfold LowRateAllocation
        exact lowRateP2_enforced_pres registry _ _ (lowRateP1_full registry T hE)
      have := forall₂_zip_mem hall hqmem hqenf
      omega
    · have h0 : (LowRateP1 registry T).2 = 0 := by
        rw [lowRateP1_rem]; omega
      have hall := lowRateP2_pointwise registry (LowRateP1 registry T).1
        (LowRateP1 registry T).2 0 (lowRateP1_length registry T) (by omega)
      have hhp : p ∈ registry.zip (LowRateP2 registry (LowRateP1 registry T).1
          (LowRateP1 registry T).2).1 := by
        simpa [LowRateAllocation] using hp
      have := forall₂_zip_mem hall hhp hnenf
      omega

/-- Witness for C3: enforced observer (min 100) and non-enforced observer
(min 50) at `T = 120 <` the 150 sum of minimums. -/
theorem lowRate_enforced_first_witness :
    sumEnforcedAlloc [obsEnforced, obsSoft]
        (LowRateAllocation [obsEnforced, obsSoft] 120) ≤ 120 ∧
    (∀ p ∈ [obsEnforced, obsSoft].zip (LowRateAllocation [obsEnforced, obsSoft] 120),
        p.1.enforce_min_bitrate = true → p.2 ≤ p.1.min_bitrate_bps) ∧
    (∀ (i : Nat) (c : ObserverConfig), [obsEnforced, obsSoft].get? i = some c →
        c.enforce_min_bitrate = true →
        (LowRateAllocation [obsEnforced, obsSoft] 120).get? i =
          some (min c.min_bitrate_bps
            (120 - sumEnfMin ([obsEnforced, obsSoft].take i))) ∧
        (sumEnfMin ([obsEnforced, obsSoft].take i) + c.min_bitrate_bps ≤ 120 →
          (LowRateAllocation [obsEnforced, obsSoft] 120).get? i =
            some c.min_bitrate_bps) ∧
        (120 ≤ sumEnfMin ([obsEnforced, obsSoft].take i) →
          (LowRateAllocation [obsEnforced, obsSoft] 120).get? i = some 0)) ∧
    ((∃ q ∈ [obsEnforced, obsSoft].zip (LowRateAllocation [obsEnforced, obsSoft] 120),
        q.1.enforce_min_bitrate = true ∧ q.2 < q.1.min_bitrate_bps) →
      ∀ p ∈ [obsEnforced, obsSoft].zip (LowRateAllocation [obsEnforced, obsSoft] 120),
        p.1.enforce_min_bitrate = false → p.2 = 0) :=
  lowRate_enforced_first [obsEnforced, obsSoft] 120 (by decide) (by decide)

/-! ### Claim C6 -/

/-- C6: the effective minimum used by the allocation pass for a paused
observer (last allocation 0) is its plain minimum inflated by a fixed
positive margin, and for a non-paused observer it is the plain minimum.
Consequently, in the Low-Rate tier a paused non-enforced observer is either
left at 0 or re-activated at exactly the inflated minimum: a grant strictly
exceeds its plain minimum and requires the target bitrate to cover the
inflated minimum. -/
theorem hysteresis_inflates_paused_min (registry : List ObserverConfig) (T : Nat) :
    (∀ p ∈ registry.zip (LowRateAllocation registry T),
        p.1.enforce_min_bitrate = false → p.1.allocated_bitrate_bps = 0 →
          p.2 = 0 ∨
            (p.2 = p.1.min_bitrate_bps + hysteresisMargin p.1.min_bitrate_bps ∧
             p.1.min_bitrate_bps < p.2 ∧ p.1.min_bitrate_bps + hysteresisMargin
               p.1.min_bitrate_bps ≤ T)) ∧
    (∀ c : ObserverConfig, c.allocated_bitrate_bps ≠ 0 →
        MinBitrateWithHysteresis c = c.min_bitrate_bps) := by
  constructor
  · intro p hp hnenf hpause
    have hall := lowRateP2_pointwise registry (LowRateP1 registry T).1
      (LowRateP1 registry T).2 T (lowRateP1_length registry T)
      (by rw [lowRateP1_rem]; omega)
    have hhp : p ∈ registry.zip (LowRateP2 registry (LowRateP1 registry T).1
        (LowRateP1 registry T).2).1 := by
      simpa [LowRateAllocation] using hp
    rcases forall₂_zip_mem hall hhp hnenf with h0 | ⟨hval, hle⟩
    · exact Or.inl h0
    · have hM := minBitrate_paused p.1 hpause
      have hpos := hysteresisMargin_pos p.1.min_bitrate_bps
      rw [hM] at hval hle
      exact Or.inr ⟨hval, by omega, hle⟩
  · exact fun c hc => minBitrate_not_paused c hc

/-- Witness for C6: with an active large-minimum observer and a paused
zero-minimum observer at `T = 20000`, the paused observer re-activates at the
inflated minimum 20000. -/
theorem hysteresis_inflates_paused_min_witness :
    ((obsPaused, (20000 : Nat)).2 = 0 ∨
      ((obsPaused, (20000 : Nat)).2 = obsPaused.min_bitrate_bps +
          hysteresisMargin obsPaused.min_bitrate_bps ∧
        obsPaused.min_bitrate_bps < (obsPaused, (20000 : Nat)).2 ∧
        obsPaused.min_bitrate_bps + hysteresisMargin obsPaused.min_bitrate_bps ≤ 20000)) :=
  (hysteresis_inflates_paused_min [obsActive, obsPaused] 20000).1
    (obsPaused, 20000) (by decide) (by decide) (by decide)

/-! ### Even-distribution machinery -/

theorem slotEvo_refl (s : Slot) : SlotEvo s s :=
  ⟨rfl, fun _ => rfl, fun _ => Or.inr rfl, min_le_left _ _, le_max_left _ _⟩

theorem slotEvo_trans {s t u : Slot} (h1 : SlotEvo s t) (h2 : SlotEvo t u) : SlotEvo s u := by
  obtain ⟨hc1, hf1, hcl1, hlo1, hhi1⟩ := h1
  obtain ⟨hc2, hf2, hcl2, hlo2, hhi2⟩ := h2
  refine ⟨hc2.trans hc1, ?_, ?_, ?_, ?_⟩
  · intro hse
    have ht := hf1 hse
    subst ht
    exact hf2 hse
  · intro hue
    rcases hcl2 hue with h | h
    · exact Or.inl h
    · subst h
      rcases hcl1 hue with h' | h'
      · exact Or.inl h'
      · exact Or.inr h'
  · omega
  · omega

theorem forall₂_slotEvo_refl (l : List Slot) : List.Forall₂ SlotEvo l l := by
  induction l with
  | nil => exact List.Forall₂.nil
  | cons s rest ih => exact List.Forall₂.cons (slotEvo_refl s) ih

theorem distPass_evo (share bonus : Nat) (slots : List Slot) :
    List.Forall₂ SlotEvo slots (distPass share bonus slots).1 := by
  induction slots generalizing bonus with
  | nil => exact List.Forall₂.nil
  | cons s rest ih =>
    by_cases he : s.elig
    · by_cases hb0 : 0 < bonus
      · by_cases hcl : s.cap < s.alloc + share + 1
        · simp only [distPass, he, hb0, hcl, if_true, ite_true]
          refine List.Forall₂.cons ⟨rfl, ?_, fun _ => Or.inl rfl, ?_, ?_⟩ (ih _)
          · intro hse; rw [he] at hse; cases hse
          · show min s.alloc s.cap ≤ s.cap; omega
          · show s.cap ≤ max s.alloc s.cap; omega
        · simp only [distPass, he, hb0, hcl, if_true, ite_true, ite_false]
          refine List.Forall₂.cons ⟨rfl, ?_, ?_, ?_, ?_⟩ (ih _)
          · intro hse; rw [he] at hse; cases hse
          · intro hte; cases hte
          · show min s.alloc s.cap ≤ s.alloc + share + 1; omega
          · show s.alloc + share + 1 ≤ max s.alloc s.cap; omega
      · by_cases hcl : s.cap < s.alloc + share + 0
        · simp only [distPass, he, hb0, hcl, if_true, ite_true, ite_false]
          refine List.Forall₂.cons ⟨rfl, ?_, fun _ => Or.inl rfl, ?_, ?_⟩ (ih _)
          · intro hse; rw [he] at hse; cases hse
          · show min s.alloc s.cap ≤ s.cap; omega
          · show s.cap ≤ max s.alloc s.cap; omega
        · simp only [distPass, he, hb0, hcl, if_true, ite_true, ite_false]
          refine List.Forall₂.cons ⟨rfl, ?_, ?_, ?_, ?_⟩ (ih _)
          · intro hse; rw [he] at hse; cases hse
          · intro hte; cases hte
          · show min s.alloc s.cap ≤ s.alloc + share + 0; omega
          · show s.alloc + share + 0 ≤ max s.alloc s.cap; omega
    · simp only [distPass, he, if_false, Bool.false_eq_true, ite_false]
      exact List.Forall₂.cons (slotEvo_refl s) (ih _)

theorem countElig_cons (x : Slot) (l : List Slot) :
    countElig (x :: l) = countElig l + (if x.elig then 1 else 0) := by
  simp [countElig, List.countP_cons]

theorem allocSum_cons (x : Slot) (l : List Slot) :
    allocSum (x :: l) = x.alloc + allocSum l := by
  simp [allocSum, sumList]

theorem capSum_cons (x : Slot) (l : List Slot) :
    capSum (x :: l) = x.cap + capSum l := by
  simp [capSum, sumList]

theorem distPass_count_le (share bonus : Nat) (slots : List Slot) :
    countElig (distPass share bonus slots).1 ≤ countElig slots := by
  induction slots generalizing bonus with
  | nil => simp [distPass, countElig]
  | cons s rest ih =>
    by_cases he : s.elig
    · by_cases hb0 : 0 < bonus
      · by_cases hcl : s.cap < s.alloc + share + 1
        · simp only [distPass, he, hb0, hcl, if_true, ite_true]
          rw [countElig_cons, countElig_cons]
          have := ih (bonus - 1)
          simp [he]
          omega
        · simp only [distPass, he, hb0, hcl, if_true, ite_true, ite_false]
          rw [countElig_cons, countElig_cons]
          have := ih (bonus - 1)
          simp [he]
          omega
      · by_cases hcl : s.cap < s.alloc + share + 0
        · simp only [distPass, he, hb0, hcl, if_true, ite_true, ite_false]
          rw [countElig_cons, countElig_cons]
          have := ih bonus
          simp [he]
          omega
        · simp only [distPass, he, hb0, hcl, if_true, ite_true, ite_false]
          rw [countElig_cons, countElig_cons]
          have := ih bonus
          simp [he]
          omega
    · simp only [distPass, he, if_false, Bool.false_eq_true, ite_false]
      rw [countElig_cons, countElig_cons]
      have := ih bonus
      omega

theorem distPass_leftover_count (share bonus : Nat) (slots : List Slot)
    (h : 0 < (distPass share bonus slots).2) :
    countElig (distPass share bonus slots).1 < countElig slots := by
  induction slots generalizing bonus with
  | nil => simp [distPass] at h
  | cons s rest ih =>
    by_cases he : s.elig
    · by_cases hb0 : 0 < bonus
      · by_cases hcl : s.cap < s.alloc + share + 1
        · simp only [distPass, he, hb0, hcl, if_true, ite_true]
          rw [countElig_cons, countElig_cons]
          have hle := distPass_count_le share (bonus - 1) rest
          simp [he]
          omega
        · simp only [distPass, he, hb0, hcl, if_true, ite_true, ite_false] at h ⊢
          rw [countElig_cons, countElig_cons]
          have := ih (bonus - 1) h
          simp [he]
          omega
      · by_cases hcl : s.cap < s.alloc + share + 0
        · simp only [distPass, he, hb0, hcl, if_true, ite_true, ite_false]
          rw [countElig_cons, countElig_cons]
          have hle := distPass_count_le share bonus rest
          simp [he]
          omega
        · simp only [distPass, he, hb0, hcl, if_true, ite_true, ite_false] at h ⊢
          rw [countElig_cons, countElig_cons]
          have := ih bonus h
          simp [he]
          omega
    · simp only [distPass, he, if_false, Bool.false_eq_true, ite_false] at h ⊢
      rw [countElig_cons, countElig_cons]
      have := ih bonus h
      simp [he]
      omega

theorem distPass_conserve (share bonus : Nat) (slots : List Slot)
    (hb : bonus ≤ countElig slots) :
    allocSum (distPass share bonus slots).1 + (distPass share bonus slots).2 =
      allocSum slots + share * countElig slots + bonus := by
  induction slots generalizing bonus with
  | nil =>
    simp [distPass, allocSum, sumList, countElig] at hb ⊢
    omega
  | cons s rest ih =>
    have hmul : share * (countElig rest + 1) = share * countElig rest + share := by ring
    by_cases he : s.elig
    · have hcnt : countElig (s :: rest) = countElig rest + 1 := by
        rw [countElig_cons]; simp [he]
      rw [hcnt] at hb ⊢
      rw [hmul]
      by_cases hb0 : 0 < bonus
      · have hrec := ih (bonus - 1) (by omega)
        by_cases hcl : s.cap < s.alloc + share + 1
        · simp only [distPass, he, hb0, hcl, if_true, ite_true]
          simp only [allocSum_cons]
          omega
        · simp only [distPass, he, hb0, hcl, if_true, ite_true, ite_false]
          simp only [allocSum_cons]
          omega
      · have hrec := ih bonus (by omega)
        by_cases hcl : s.cap < s.alloc + share + 0
        · simp only [distPass, he, hb0, hcl, if_true, ite_true, ite_false, Nat.sub_zero]
          simp only [allocSum_cons]
          omega
        · simp only [distPass, he, hb0, hcl, if_true, ite_true, ite_false, Nat.sub_zero]
          simp only [allocSum_cons]
          omega
    · have hcnt : countElig (s :: rest) = countElig rest := by
        rw [countElig_cons]; simp [he]
      rw [hcnt] at hb ⊢
      have hrec := ih bonus hb
      simp only [distPass, he, if_false, Bool.false_eq_true, ite_false]
      simp only [allocSum_cons]
      omega

theorem distLoop_evo (fuel : Nat) (slots : List Slot) (remaining : Nat) :
    List.Forall₂ SlotEvo slots (distLoop fuel slots remaining).1 := by
  induction fuel generalizing slots remaining with
  | zero => exact forall₂_slotEvo_refl slots
  | succ fuel ih =>
    by_cases hstop : remaining = 0 ∨ countElig slots = 0
    · simp only [distLoop]
      rw [if_pos hstop]
      exact forall₂_slotEvo_refl slots
    · simp only [distLoop]
      rw [if_neg hstop]
      exact forall₂_compose (R := SlotEvo) (S := SlotEvo) (T := SlotEvo)
        (fun _ _ _ h1 h2 => slotEvo_trans h1 h2)
        (distPass_evo (remaining / countElig slots) (remaining % countElig slots) slots)
        (ih _ _)

theorem distLoop_length (fuel : Nat) (slots : List Slot) (remaining : Nat) :
    (distLoop fuel slots remaining).1.length = slots.length :=
  (List.Forall₂.length_eq (distLoop_evo fuel slots remaining)).symm

theorem distLoop_conserve (fuel : Nat) (slots : List Slot) (remaining : Nat) :
    allocSum (distLoop fuel slots remaining).1 + (distLoop fuel slots remaining).2 =
      allocSum slots + remaining := by
  induction fuel generalizing slots remaining with
  | zero => rfl
  | succ fuel ih =>
    by_cases hstop : remaining = 0 ∨ countElig slots = 0
    · simp only [distLoop]
      rw [if_pos hstop]
    · simp only [distLoop]
      rw [if_neg hstop]
      push_neg at hstop
      have hn : 0 < countElig slots := Nat.pos_of_ne_zero hstop.2
      have hcons := distPass_conserve (remaining / countElig slots)
        (remaining % countElig slots) slots (le_of_lt (Nat.mod_lt _ hn))
      have hrec := ih (distPass (remaining / countElig slots)
        (remaining % countElig slots) slots).1
        (distPass (remaining / countElig slots) (remaining % countElig slots) slots).2
      have hdm := Nat.div_add_mod remaining (countElig slots)
      have hmul : remaining / countElig slots * countElig slots =
          countElig slots * (remaining / countElig slots) := Nat.mul_comm _ _
      omega

theorem distLoop_zero_rem (fuel : Nat) (slots : List Slot) :
    distLoop fuel slots 0 = (slots, 0) := by
  cases fuel with
  | zero => rfl
  | succ fuel => simp [distLoop]

theorem distLoop_exit (fuel : Nat) (slots : List Slot) (remaining : Nat)
    (h : countElig slots < fuel) :
    (distLoop fuel slots remaining).2 = 0 ∨
      countElig (distLoop fuel slots remaining).1 = 0 := by
  induction fuel generalizing slots remaining with
  | zero => omega
  | succ fuel ih =>
    by_cases hstop : remaining = 0 ∨ countElig slots = 0
    · simp only [distLoop]
      rw [if_pos hstop]
      exact hstop
    · simp only [distLoop]
      rw [if_neg hstop]
      by_cases hl : (distPass (remaining / countElig slots)
          (remaining % countElig slots) slots).2 = 0
      · rw [hl, distLoop_zero_rem]
        exact Or.inl rfl
      · have hlt := distPass_leftover_count (remaining / countElig slots)
          (remaining % countElig slots) slots (Nat.pos_of_ne_zero hl)
        exact ih _ _ (by omega)

theorem mkSlots_length (iz : Bool) (caps alloc : List Nat) (h : caps.length = alloc.length) :
    (mkSlots iz caps alloc).length = caps.length := by
  induction caps generalizing alloc with
  | nil => simp [mkSlots]
  | cons cp caps ih =>
    cases alloc with
    | nil => simp at h
    | cons a rest => simp [mkSlots, ih rest (by simpa using h)]

theorem mkSlots_true_elig (caps alloc : List Nat) :
    ∀ s ∈ mkSlots true caps alloc, s.elig = true := by
  induction caps generalizing alloc with
  | nil => simp [mkSlots]
  | cons cp caps ih =>
    cases alloc with
    | nil => simp [mkSlots]
    | cons a rest =>
      intro s hs
      simp only [mkSlots, Bool.true_or, List.mem_cons] at hs
      rcases hs with h | h
      · rw [h]
      · exact ih rest s h

theorem mkSlots_allocSum (iz : Bool) (caps alloc : List Nat) (h : caps.length = alloc.length) :
    allocSum (mkSlots iz caps alloc) = sumList alloc := by
  induction caps generalizing alloc with
  | nil =>
    cases alloc with
    | nil => simp [mkSlots, allocSum, sumList]
    | cons a rest => simp at h
  | cons cp caps ih =>
    cases alloc with
    | nil => simp at h
    | cons a rest =>
      simp only [mkSlots]
      rw [allocSum_cons, ih rest (by simpa using h)]
      simp [sumList]

theorem mkSlots_capSum (iz : Bool) (caps alloc : List Nat) (h : caps.length = alloc.length) :
    capSum (mkSlots iz caps alloc) = sumList caps := by
  induction caps generalizing alloc with
  | nil =>
    cases alloc with
    | nil => simp [mkSlots, capSum, sumList]
    | cons a rest => simp at h
  | cons cp caps ih =>
    cases alloc with
    | nil => simp at h
    | cons a rest =>
      simp only [mkSlots]
      rw [capSum_cons, ih rest (by simpa using h)]
      simp [sumList]

theorem mkSlots_link (f g : ObserverConfig → Nat) (r : List ObserverConfig) :
    List.Forall₂ (fun c s => s = Slot.mk (f c) true (g c)) r
      (mkSlots true (r.map f) (r.map g)) := by
  induction r with
  | nil => exact List.Forall₂.nil
  | cons c r ih =>
    simp only [List.map, mkSlots, Bool.true_or]
    exact List.Forall₂.cons rfl ih

theorem distRun_exit_cases (remaining : Nat) (iz : Bool) (caps alloc : List Nat) :
    (distRun remaining iz caps alloc).2 = 0 ∨
      countElig (distRun remaining iz caps alloc).1 = 0 :=
  distLoop_exit _ _ _ (Nat.lt_succ_self _)

theorem dbe_conserve (remaining : Nat) (iz : Bool) (caps alloc : List Nat)
    (h : caps.length = alloc.length) :
    sumList (DistributeBitrateEvenly remaining iz caps alloc) +
      (distRun remaining iz caps alloc).2 = sumList alloc + remaining := by
  have h1 := distLoop_conserve (countElig (mkSlots iz caps alloc) + 1)
    (mkSlots iz caps alloc) remaining
  rw [mkSlots_allocSum iz caps alloc h] at h1
  exact h1

theorem allocSum_eq_capSum_of_clamped {l1 l2 : List Slot}
    (hevo : List.Forall₂ SlotEvo l1 l2) (h1 : ∀ s ∈ l1, s.elig = true)
    (h2 : ∀ t ∈ l2, ¬ t.elig = true) : allocSum l2 = capSum l2 := by
  induction hevo with
  | nil => rfl
  | @cons s t l1t l2t hst _ ih =>
    obtain ⟨hc, _, hcl, _, _⟩ := hst
    have hte : ¬ t.elig = true := h2 t (List.mem_cons_self t l2t)
    have hse : s.elig = true := h1 s (List.mem_cons_self s l1t)
    have hac : t.alloc = t.cap := by
      rcases hcl (by simpa using hte) with h | h
      · exact h
      · rw [h] at hte; exact absurd hse hte
    rw [allocSum_cons, capSum_cons, hac,
      ih (fun x hx => h1 x (List.mem_cons_of_mem s hx))
        (fun x hx => h2 x (List.mem_cons_of_mem t hx))]

theorem capSum_evo {l1 l2 : List Slot} (hevo : List.Forall₂ SlotEvo l1 l2) :
    capSum l2 = capSum l1 := by
  induction hevo with
  | nil => rfl
  | @cons s t l1t l2t hst _ ih =>
    rw [capSum_cons, capSum_cons, hst.1, ih]

theorem dbe_all_clamped (remaining : Nat) (caps alloc : List Nat)
    (h : caps.length = alloc.length)
    (hcl : countElig (distRun remaining true caps alloc).1 = 0) :
    sumList (DistributeBitrateEvenly remaining true caps alloc) = sumList caps := by
  have hevo : List.Forall₂ SlotEvo (mkSlots true caps alloc)
      (distRun remaining true caps alloc).1 := distLoop_evo _ _ _
  have hfin : ∀ t ∈ (distRun remaining true caps alloc).1, ¬ t.elig = true :=
    List.countP_eq_zero.mp hcl
  have hac := allocSum_eq_capSum_of_clamped hevo (mkSlots_true_elig caps alloc) hfin
  have hcs := capSum_evo hevo
  rw [mkSlots_capSum true caps alloc h] at hcs
  calc sumList (DistributeBitrateEvenly remaining true caps alloc)
      = allocSum (distRun remaining true caps alloc).1 := rfl
    _ = capSum (distRun remaining true caps alloc).1 := hac
    _ = sumList caps := hcs

theorem dbe_length (remaining : Nat) (iz : Bool) (caps alloc : List Nat)
    (h : caps.length = alloc.length) :
    (DistributeBitrateEvenly remaining iz caps alloc).length = caps.length := by
  have h1 := distLoop_length (countElig (mkSlots iz caps alloc) + 1)
    (mkSlots iz caps alloc) remaining
  rw [mkSlots_length iz caps alloc h] at h1
  calc (DistributeBitrateEvenly remaining iz caps alloc).length
      = (distRun remaining iz caps alloc).1.length := List.length_map _ _
    _ = caps.length := h1

theorem dbe_bounds_generic {f g : ObserverConfig → Nat} (r : List ObserverConfig)
    (rem : Nat) (hfg : ∀ c, g c ≤ f c) :
    List.Forall₂ (fun c a => g c ≤ a ∧ a ≤ f c) r
      (DistributeBitrateEvenly rem true (r.map f) (r.map g)) := by
  have hlink := mkSlots_link f g r
  have hevo : List.Forall₂ SlotEvo (mkSlots true (r.map f) (r.map g))
      (distRun rem true (r.map f) (r.map g)).1 := distLoop_evo _ _ _
  have hcomp := forall₂_compose (R := fun c s => s = Slot.mk (f c) true (g c))
    (S := SlotEvo) (T := fun c t => g c ≤ t.alloc ∧ t.alloc ≤ f c)
    (fun c s t hR hS => by
      subst hR
      obtain ⟨hc, _, _, hlo, hhi⟩ := hS
      dsimp only at hc hlo hhi
      have := hfg c
      exact ⟨by omega, by omega⟩)
    hlink hevo
  exact List.forall₂_map_right_iff.mpr hcomp

/-! ### Tier totals -/

theorem sumMin_cons (c : ObserverConfig) (r : List ObserverConfig) :
    sumMin (c :: r) = c.min_bitrate_bps + sumMin r := by simp [sumMin, sumList]

theorem sumMax_cons (c : ObserverConfig) (r : List ObserverConfig) :
    sumMax (c :: r) = c.max_bitrate_bps + sumMax r := by simp [sumMax, sumList]

theorem sumMaxCaps_cons (c : ObserverConfig) (r : List ObserverConfig) :
    sumMaxCaps (c :: r) = maxRateCap c + sumMaxCaps r := by simp [sumMaxCaps, sumList]

theorem sumMin_le_sumMax (r : List ObserverConfig)
    (h : ∀ c ∈ r, c.min_bitrate_bps ≤ c.max_bitrate_bps) : sumMin r ≤ sumMax r := by
  induction r with
  | nil => simp [sumMin, sumMax, sumList]
  | cons c r ih =>
    rw [sumMin_cons, sumMax_cons]
    have h1 := h c (List.mem_cons_self c r)
    have h2 := ih (fun x hx => h x (List.mem_cons_of_mem c hx))
    omega

theorem sumMax_le_sumMaxCaps (r : List ObserverConfig) : sumMax r ≤ sumMaxCaps r := by
  induction r with
  | nil => simp [sumMax, sumMaxCaps, sumList]
  | cons c r ih =>
    rw [sumMax_cons, sumMaxCaps_cons]
    have : c.max_bitrate_bps ≤ maxRateCap c := by unfold maxRateCap; omega
    omega

theorem forall₂_sumList_le {f : ObserverConfig → Nat} {r : List ObserverConfig}
    {l : List Nat} (h : List.Forall₂ (fun c a => a ≤ f c) r l) :
    sumList l ≤ sumList (r.map f) := by
  induction h with
  | nil => simp [sumList]
  | @cons c a rt lt hca _ ih => simp only [List.map, sumList]; omega

theorem forall₂_sumList_ge {f : ObserverConfig → Nat} {r : List ObserverConfig}
    {l : List Nat} (h : List.Forall₂ (fun c a => f c ≤ a) r l) :
    sumList (r.map f) ≤ sumList l := by
  induction h with
  | nil => simp [sumList]
  | @cons c a rt lt hca _ ih => simp only [List.map, sumList]; omega

theorem maxRate_bounds (r : List ObserverConfig) (T : Nat) :
    List.Forall₂ (fun c a => c.max_bitrate_bps ≤ a ∧ a ≤ maxRateCap c) r
      (MaxRateAllocation r T (sumMax r)) := by
  unfold MaxRateAllocation
  exact dbe_bounds_generic r (T - sumMax r) (fun c => by unfold maxRateCap; omega)

theorem maxRate_total (r : List ObserverConfig) (T : Nat) (h : sumMax r ≤ T) :
    sumList (MaxRateAllocation r T (sumMax r)) = min T (sumMaxCaps r) := by
  have hlen : (r.map maxRateCap).length = (r.map (·.max_bitrate_bps)).length := by simp
  have hcons := dbe_conserve (T - sumMax r) true (r.map maxRateCap)
    (r.map (·.max_bitrate_bps)) hlen
  have hsm : sumList (r.map (·.max_bitrate_bps)) = sumMax r := rfl
  have hsc : sumList (r.map maxRateCap) = sumMaxCaps r := rfl
  have hle : sumList (MaxRateAllocation r T (sumMax r)) ≤ sumMaxCaps r := by
    have h1 := forall₂_sumList_le (f := maxRateCap)
      ((maxRate_bounds r T).imp (fun c a hx => hx.2))
    rw [hsc] at h1
    exact h1
  rcases distRun_exit_cases (T - sumMax r) true (r.map maxRateCap)
      (r.map (·.max_bitrate_bps)) with h0 | hcl
  · unfold MaxRateAllocation at hle ⊢
    omega
  · have hclam := dbe_all_clamped (T - sumMax r) _ _ hlen hcl
    unfold MaxRateAllocation at hle ⊢
    omega

theorem maxRate_total_ge (r : List ObserverConfig) (T : Nat) :
    sumMax r ≤ sumList (MaxRateAllocation r T (sumMax r)) := by
  have h1 := forall₂_sumList_ge (f := fun c => c.max_bitrate_bps)
    ((maxRate_bounds r T).imp (fun c a hx => hx.1))
  have hsm : sumList (r.map (·.max_bitrate_bps)) = sumMax r := rfl
  rw [hsm] at h1
  exact h1

theorem normalRate_total (r : List ObserverConfig) (T : Nat)
    (hmin : sumMin r ≤ T) (hmax : T < sumMax r) :
    sumList (NormalRateAllocation r T (sumMin r)) = T := by
  have hlen : (r.map (·.max_bitrate_bps)).length = (r.map (·.min_bitrate_bps)).length := by
    simp
  have hcons := dbe_conserve (T - sumMin r) true (r.map (·.max_bitrate_bps))
    (r.map (·.min_bitrate_bps)) hlen
  have hsm : sumList (r.map (·.min_bitrate_bps)) = sumMin r := rfl
  have hsx : sumList (r.map (·.max_bitrate_bps)) = sumMax r := rfl
  rcases distRun_exit_cases (T - sumMin r) true (r.map (·.max_bitrate_bps))
      (r.map (·.min_bitrate_bps)) with h0 | hcl
  · unfold NormalRateAllocation
    omega
  · have hclam := dbe_all_clamped (T - sumMin r) _ _ hlen hcl
    unfold NormalRateAllocation
    omega

/-! ### Tier dispatch -/

theorem allocate_empty (r : List ObserverConfig) (T : Nat) (h : r.isEmpty = true) :
    AllocateBitrates r T = [] := by
  simp [AllocateBitrates, h]

theorem allocate_zero (r : List ObserverConfig) (h : r.isEmpty = false) :
    AllocateBitrates r 0 = ZeroRateAllocation r := by
  simp [AllocateBitrates, h]

theorem allocate_low (r : List ObserverConfig) (T : Nat) (he : r.isEmpty = false)
    (h0 : T ≠ 0) (hlt : T < sumMin r) : AllocateBitrates r T = LowRateAllocation r T := by
  have hn : ¬ (sumMin r ≤ T) := by omega
  simp [AllocateBitrates, he, h0, EnoughBitrateForAllObservers, hn]

theorem allocate_normal (r : List ObserverConfig) (T : Nat) (he : r.isEmpty = false)
    (h0 : T ≠ 0) (hge : sumMin r ≤ T) (hlt : T < sumMax r) :
    AllocateBitrates r T = NormalRateAllocation r T (sumMin r) := by
  simp [AllocateBitrates, he, h0, EnoughBitrateForAllObservers, hge, hlt]

theorem allocate_max (r : List ObserverConfig) (T : Nat) (he : r.isEmpty = false)
    (h0 : T ≠ 0) (hge : sumMin r ≤ T) (hge2 : sumMax r ≤ T) :
    AllocateBitrates r T = MaxRateAllocation r T (sumMax r) := by
  have hn : ¬ (T < sumMax r) := by omega
  simp [AllocateBitrates, he, h0, EnoughBitrateForAllObservers, hge, hn]

theorem zeroRate_total (r : List ObserverConfig) : sumList (ZeroRateAllocation r) = 0 :=
  sumList_map_zero r

theorem allocate_total_le (r : List ObserverConfig) (T : Nat) :
    sumList (AllocateBitrates r T) ≤ T := by
  by_cases he : r.isEmpty
  · rw [allocate_empty r T he]
    simp [sumList]
  · have he' : r.isEmpty = false := by simpa using he
    by_cases h0 : T = 0
    · subst h0
      rw [allocate_zero r he', zeroRate_total]
    · by_cases hlow : T < sumMin r
      · rw [allocate_low r T he' h0 hlow]
        exact lowRate_total_le r T
      · by_cases hnm : T < sumMax r
        · rw [allocate_normal r T he' h0 (by omega) hnm,
            normalRate_total r T (by omega) hnm]
        · rw [allocate_max r T he' h0 (by omega) (by omega),
            maxRate_total r T (by omega)]
          omega

/-! ### Claim C2 -/

/-- C2: whenever the target bitrate is at least the sum of maximums, the
Max-Rate tier gives every registered observer at least its own
`max_bitrate_bps`; the surplus is distributed on top, each observer bounded
by its padding target scaled by the headroom multiplier, and the total is
`min T (sum of headroom caps)`, so surplus is only discarded once every
observer's headroom cap is reached. -/
theorem maxRate_grants_max (registry : List ObserverConfig) (T : Nat)
    (h : sumMax registry ≤ T) :
    List.Forall₂ (fun c a => c.max_bitrate_bps ≤ a ∧ a ≤ maxRateCap c) registry
      (MaxRateAllocation registry T (sumMax registry)) ∧
    sumList (MaxRateAllocation registry T (sumMax registry)) =
      min T (sumMaxCaps registry) :=
  ⟨maxRate_bounds registry T, maxRate_total registry T h⟩

/-- Witness for C2: two observers with maximums 300 and 400 at `T = 800`. -/
theorem maxRate_grants_max_witness :
    List.Forall₂ (fun c a => c.max_bitrate_bps ≤ a ∧ a ≤ maxRateCap c)
      [obsEnforced, obsSoft]
      (MaxRateAllocation [obsEnforced, obsSoft] 800 (sumMax [obsEnforced, obsSoft])) ∧
    sumList (MaxRateAllocation [obsEnforced, obsSoft] 800
      (sumMax [obsEnforced, obsSoft])) = min 800 (sumMaxCaps [obsEnforced, obsSoft]) :=
  maxRate_grants_max [obsEnforced, obsSoft] 800 (by decide)

/-! ### Claim C9 -/

/-- C9: the iterative redistribution loop of the even-distribution primitive
terminates for every input: run with its fuel bound (one more than the number
of eligible observers) it reaches a state where either the remaining bitrate
is zero or no eligible observer is left below its cap (every still-listed
observer has been clamped off the eligible set). -/
theorem distributeBitrateEvenly_terminates (remaining : Nat)
    (include_zero_allocations : Bool) (caps alloc : List Nat) :
    (distRun remaining include_zero_allocations caps alloc).2 = 0 ∨
      countElig (distRun remaining include_zero_allocations caps alloc).1 = 0 :=
  distRun_exit_cases remaining include_zero_allocations caps alloc

/-! ### Claim C5 -/

/-- C5 as stated is refuted: with an observer whose declared minimum (100)
exceeds its declared maximum (10) - the unenforced caller contract - the
total allocated at `T = 100` (Max-Rate tier, capped at the maximum) is
smaller than the total at `T = 50` (Low-Rate tier, which grants the enforced
minimum up to the whole budget). -/
theorem allocate_total_monotone_cex :
    (50 : Nat) ≤ 100 ∧
    sumList (AllocateBitrates [obsMinOverMax] 100) <
      sumList (AllocateBitrates [obsMinOverMax] 50) := by decide

/-- C5 amended: for a fixed registry in which every observer's
`min_bitrate_bps` is at most its `max_bitrate_bps`, and fixed per-observer
running state, the total bitrate handed out by `AllocateBitrates` is
monotone in the target bitrate. -/
theorem allocate_total_monotone (r : List ObserverConfig) (T1 T2 : Nat)
    (hmm : ∀ c ∈ r, c.min_bitrate_bps ≤ c.max_bitrate_bps) (h12 : T1 ≤ T2) :
    sumList (AllocateBitrates r T1) ≤ sumList (AllocateBitrates r T2) := by
  have hsums : sumMin r ≤ sumMax r := sumMin_le_sumMax r hmm
  have hcaps : sumMax r ≤ sumMaxCaps r := sumMax_le_sumMaxCaps r
  by_cases he : r.isEmpty
  · rw [allocate_empty r T1 he, allocate_empty r T2 he]
  · have he' : r.isEmpty = false := by simpa using he
    by_cases h02 : T2 = 0
    · have h01 : T1 = 0 := by omega
      rw [h01, h02]
    · by_cases h01 : T1 = 0
      · rw [h01, allocate_zero r he', zeroRate_total]
        exact Nat.zero_le _
      · by_cases hlow2 : T2 < sumMin r
        · have hlow1 : T1 < sumMin r := by omega
          rw [allocate_low r T1 he' h01 hlow1, allocate_low r T2 he' h02 hlow2]
          exact lowRate_total_mono r h12
        · by_cases hnorm2 : T2 < sumMax r
          · rw [allocate_normal r T2 he' h02 (by omega) hnorm2,
              normalRate_total r T2 (by omega) hnorm2]
            have := allocate_total_le r T1
            omega
          · rw [allocate_max r T2 he' h02 (by omega) (by omega),
              maxRate_total r T2 (by omega)]
            by_cases hlow1 : T1 < sumMin r
            · have h1 := allocate_total_le r T1
              omega
            · by_cases hnorm1 : T1 < sumMax r
              · rw [allocate_normal r T1 he' h01 (by omega) hnorm1,
                  normalRate_total r T1 (by omega) hnorm1]
                omega
              · rw [allocate_max r T1 he' h01 (by omega) (by omega),
                  maxRate_total r T1 (by omega)]
                omega

/-- Witness for C5 amended: a two-observer registry with coherent bounds at
targets 120 and 800. -/
theorem allocate_total_monotone_witness :
    sumList (AllocateBitrates [obsEnforced, obsSoft] 120) ≤
      sumList (AllocateBitrates [obsEnforced, obsSoft] 800) :=
  allocate_total_monotone [obsEnforced, obsSoft] 120 800 (by decide) (by decide)

/-! ### Allocation length and static-field invariance -/

theorem allocate_length (r : List ObserverConfig) (T : Nat) :
    (AllocateBitrates r T).length = r.length := by
  by_cases he : r.isEmpty
  · cases r with
    | nil => rfl
    | cons c rest => simp at he
  · have he' : r.isEmpty = false := by simpa using he
    by_cases h0 : T = 0
    · subst h0
      rw [allocate_zero r he']
      simp [ZeroRateAllocation]
    · by_cases hlow : T < sumMin r
      · rw [allocate_low r T he' h0 hlow]
        exact lowRate_length r T
      · by_cases hnm : T < sumMax r
        · rw [allocate_normal r T he' h0 (by omega) hnm]
          unfold NormalRateAllocation
          rw [dbe_length _ _ _ _ (by simp)]
          simp
        · rw [allocate_max r T he' h0 (by omega) (by omega)]
          unfold MaxRateAllocation
          rw [dbe_length _ _ _ _ (by simp)]
          simp

theorem forall₂_map_eq {α β : Type} {R : α → α → Prop} (f : α → β)
    (hf : ∀ a b, R a b → f b = f a) {l l' : List α}
    (h : List.Forall₂ R l l') : l'.map f = l.map f := by
  induction h with
  | nil => rfl
  | @cons a b lt lt' hab _ ih => simp [List.map, ih, hf _ _ hab]

theorem staticEq_sumMin {r r' : List ObserverConfig}
    (h : List.Forall₂ StaticEq r r') : sumMin r' = sumMin r := by
  unfold sumMin
  rw [forall₂_map_eq (fun c => c.min_bitrate_bps) (fun a b hab => hab.2.1) h]

theorem staticEq_sumMax {r r' : List ObserverConfig}
    (h : List.Forall₂ StaticEq r r') : sumMax r' = sumMax r := by
  unfold sumMax
  rw [forall₂_map_eq (fun c => c.max_bitrate_bps) (fun a b hab => hab.2.2.1) h]

theorem staticEq_zeroRate {r r' : List ObserverConfig}
    (h : List.Forall₂ StaticEq r r') : ZeroRateAllocation r' = ZeroRateAllocation r := by
  unfold ZeroRateAllocation
  exact forall₂_map_eq (fun _ => 0) (fun _ _ _ => rfl) h

theorem staticEq_normal {r r' : List ObserverConfig} (T s : Nat)
    (h : List.Forall₂ StaticEq r r') :
    NormalRateAllocation r' T s = NormalRateAllocation r T s := by
  unfold NormalRateAllocation
  rw [forall₂_map_eq (fun c => c.max_bitrate_bps) (fun a b hab => hab.2.2.1) h,
    forall₂_map_eq (fun c => c.min_bitrate_bps) (fun a b hab => hab.2.1) h]

theorem staticEq_maxRate {r r' : List ObserverConfig} (T s : Nat)
    (h : List.Forall₂ StaticEq r r') :
    MaxRateAllocation r' T s = MaxRateAllocation r T s := by
  unfold MaxRateAllocation
  rw [forall₂_map_eq maxRateCap
      (fun a b hab => by unfold maxRateCap; rw [hab.2.2.1, hab.2.2.2.1]) h,
    forall₂_map_eq (fun c => c.max_bitrate_bps) (fun a b hab => hab.2.2.1) h]

theorem staticEq_isEmpty {r r' : List ObserverConfig}
    (h : List.Forall₂ StaticEq r r') : r'.isEmpty = r.isEmpty := by
  cases h with
  | nil => rfl
  | cons _ _ => rfl

theorem staticEq_allocate {r r' : List ObserverConfig} (T : Nat)
    (h : List.Forall₂ StaticEq r r') (hT : T = 0 ∨ sumMin r ≤ T) :
    AllocateBitrates r' T = AllocateBitrates r T := by
  have hempty := staticEq_isEmpty h
  have hsmin := staticEq_sumMin h
  have hsmax := staticEq_sumMax h
  by_cases he : r.isEmpty
  · rw [allocate_empty r T he, allocate_empty r' T (by rw [hempty]; exact he)]
  · have he' : r.isEmpty = false := by simpa using he
    have he'' : r'.isEmpty = false := by rw [hempty]; exact he'
    by_cases h0 : T = 0
    · subst h0
      rw [allocate_zero r he', allocate_zero r' he'', staticEq_zeroRate h]
    · have hge : sumMin r ≤ T := by
        rcases hT with hT | hT
        · exact absurd hT h0
        · exact hT
      by_cases hnm : T < sumMax r
      · rw [allocate_normal r T he' h0 hge hnm,
          allocate_normal r' T he'' h0 (by omega) (by omega),
          hsmin, staticEq_normal T (sumMin r) h]
      · rw [allocate_max r T he' h0 hge (by omega),
          allocate_max r' T he'' h0 (by omega) (by omega),
          hsmax, staticEq_maxRate T (sumMax r) h]

theorem zipWith_updateConfig_static (env : Nat → Nat → Nat) (r : List ObserverConfig)
    (al : List Nat) (h : al.length = r.length) :
    List.Forall₂ StaticEq r (List.zipWith (updateConfig env) r al) := by
  induction r generalizing al with
  | nil => exact List.Forall₂.nil
  | cons c rt ih =>
    cases al with
    | nil => simp at h
    | cons a arest =>
      refine List.Forall₂.cons ?_ (ih arest (by simpa using h))
      exact ⟨rfl, rfl, rfl, rfl, rfl⟩

/-! ### Claim C4 -/

/-- C4 as stated is refuted: on a registry with an active observer whose
minimum exceeds the target and a paused zero-minimum observer, two successive
`OnNetworkChanged` calls with identical arguments (T = 20000) produce
different allocations, because the first call flips the pause states that the
Low-Rate tier's hysteresis reads. -/
theorem onNetworkChanged_not_idempotent_cex :
    (OnNetworkChanged envZero engFix 20000 0 0 0).2.1 ≠
      (OnNetworkChanged envZero (OnNetworkChanged envZero engFix 20000 0 0 0).1
        20000 0 0 0).2.1 := by decide

/-- C4 amended: calling `OnNetworkChanged` twice in succession with identical
arguments on an unchanged registry produces identical per-observer
allocations whenever the target bitrate is 0 or at least the sum of minimums
(the Zero-, Normal- and Max-Rate tiers, which read none of the running state
mutated by the first call); in the Low-Rate tier the pause state mutated by
the first call feeds the hysteresis and the second allocation can differ. -/
theorem onNetworkChanged_idempotent_outside_low (env : Nat → Nat → Nat) (e : Engine)
    (T loss : Nat) (rtt bwe : Int) (h : T = 0 ∨ sumMin e.registry ≤ T) :
    (OnNetworkChanged env (OnNetworkChanged env e T loss rtt bwe).1 T loss rtt bwe).2.1 =
      (OnNetworkChanged env e T loss rtt bwe).2.1 := by
  have hlen := allocate_length e.registry T
  have hstat := zipWith_updateConfig_static env e.registry
    (AllocateBitrates e.registry T) hlen
  show AllocateBitrates (List.zipWith (updateConfig env) e.registry
      (AllocateBitrates e.registry T)) T = AllocateBitrates e.registry T
  exact staticEq_allocate T hstat h

/-- Witness for C4 amended: the fixture engine at `T = 50000`, above its
30000 sum of minimums. -/
theorem onNetworkChanged_idempotent_witness :
    (OnNetworkChanged envZero (OnNetworkChanged envZero engFix 50000 0 0 0).1
      50000 0 0 0).2.1 = (OnNetworkChanged envZero engFix 50000 0 0 0).2.1 :=
  onNetworkChanged_idempotent_outside_low envZero engFix 50000 0 0 0 (by decide)

/-! ### Claim C7 -/

theorem update_split (r : List ObserverConfig) (obs minB maxB padUp : Nat) (enf : Bool)
    (h : containsObserver r obs = true) :
    ∃ pre c post, r = pre ++ c :: post ∧ c.observer = obs ∧
      (∀ d ∈ pre, d.observer ≠ obs) ∧
      updateObserverConfig obs minB maxB padUp enf r =
        pre ++
          { c with min_bitrate_bps := minB, max_bitrate_bps := maxB,
                   pad_up_bitrate_bps := padUp, enforce_min_bitrate := enf } :: post := by
  induction r with
  | nil => simp [containsObserver] at h
  | cons c0 rt ih =>
    by_cases hc : c0.observer = obs
    · exact ⟨[], c0, rt, by simp, hc, by simp, by simp [updateObserverConfig, hc]⟩
    · have h' : containsObserver rt obs = true := by
        simp only [containsObserver, List.any_cons, Bool.or_eq_true, beq_iff_eq] at h
        rcases h with h | h
        · exact absurd h hc
        · exact h
      obtain ⟨pre, c, post, hr, hco, hpre, hupd⟩ := ih h'
      refine ⟨c0 :: pre, c, post, by rw [hr]; rfl, hco, ?_, ?_⟩
      · intro d hd
        rcases List.mem_cons.mp hd with hd | hd
        · rw [hd]; exact hc
        · exact hpre d hd
      · simp only [updateObserverConfig, hc, if_false, List.cons_append]
        rw [hupd]

/-- C7 as stated is refuted: adding an observer handle that is already
present is not rejected and does not leave the engine unchanged - at a
concrete engine holding handle 0 with minimum 100, re-adding handle 0 with
minimum 200 changes the registry entry in place. -/
theorem addObserver_existing_not_rejected_cex :
    containsObserver engReg.registry 0 = true ∧
    (AddObserver engReg 0 200 400 0 true "a").registry ≠ engReg.registry := by decide

/-- C7 amended: adding an observer handle already present in the registry
does not insert a duplicate; the existing entry's bitrate configuration
(minimum, maximum, padding target, enforce flag) is updated in place, per the
contract comment on the `AddObserver` declaration, while the entry's
identity, running state and position - and every other entry - are
unchanged. -/
theorem addObserver_existing_updates (e : Engine) (obs minB maxB padUp : Nat)
    (enf : Bool) (track : String) (h : containsObserver e.registry obs = true) :
    ∃ pre c post, e.registry = pre ++ c :: post ∧ c.observer = obs ∧
      (∀ d ∈ pre, d.observer ≠ obs) ∧
      (AddObserver e obs minB maxB padUp enf track).registry =
        pre ++
          { c with min_bitrate_bps := minB, max_bitrate_bps := maxB,
                   pad_up_bitrate_bps := padUp, enforce_min_bitrate := enf } :: post := by
  obtain ⟨pre, c, post, hr, hco, hpre, hupd⟩ :=
    update_split e.registry obs minB maxB padUp enf h
  refine ⟨pre, c, post, hr, hco, hpre, ?_⟩
  show (if containsObserver e.registry obs = true then
      updateObserverConfig obs minB maxB padUp enf e.registry
    else e.registry ++ [mkObserverConfig obs minB maxB padUp enf track]) = _
  rw [if_pos h]
  exact hupd

/-- Witness for C7 amended: the concrete re-registration of handle 0. -/
theorem addObserver_existing_updates_witness :
    ∃ pre c post, engReg.registry = pre ++ c :: post ∧ c.observer = 0 ∧
      (∀ d ∈ pre, d.observer ≠ 0) ∧
      (AddObserver engReg 0 200 400 0 true "a").registry =
        pre ++
          { c with min_bitrate_bps := 200, max_bitrate_bps := 400,
                   pad_up_bitrate_bps := 0, enforce_min_bitrate := true } :: post :=
  addObserver_existing_updates engReg 0 200 400 0 true "a" (by decide)

/-! ### Claim C8 -/

theorem erase_split (r : List ObserverConfig) (obs : Nat)
    (h : containsObserver r obs = true) :
    ∃ pre c post, r = pre ++ c :: post ∧ c.observer = obs ∧
      (∀ d ∈ pre, d.observer ≠ obs) ∧
      eraseObserverConfig obs r = pre ++ post := by
  induction r with
  | nil => simp [containsObserver] at h
  | cons c0 rt ih =>
    by_cases hc : c0.observer = obs
    · exact ⟨[], c0, rt, by simp, hc, by simp, by simp [eraseObserverConfig, hc]⟩
    · have h' : containsObserver rt obs = true := by
        simp only [containsObserver, List.any_cons, Bool.or_eq_true, beq_iff_eq] at h
        rcases h with h | h
        · exact absurd h hc
        · exact h
      obtain ⟨pre, c, post, hr, hco, hpre, hupd⟩ := ih h'
      refine ⟨c0 :: pre, c, post, by rw [hr]; rfl, hco, ?_, ?_⟩
      · intro d hd
        rcases List.mem_cons.mp hd with hd | hd
        · rw [hd]; exact hc
        · exact hpre d hd
      · simp only [eraseObserverConfig, hc, if_false, List.cons_append]
        rw [hupd]

/-- C8: removing an absent handle is a no-op (no state change, no
collaborator call); removing a present handle erases exactly that entry
(every other entry, including its running state, is kept verbatim in order),
republishes the recomputed aggregate limits to the limit collaborator, and
emits no `OnBitrateUpdated` callback - the allocation pass is not re-run. -/
theorem removeObserver_no_reallocation (e : Engine) (obs : Nat) :
    (containsObserver e.registry obs = false → RemoveObserver e obs = (e, [])) ∧
    (containsObserver e.registry obs = true →
      ∃ pre c post, e.registry = pre ++ c :: post ∧ c.observer = obs ∧
        (∀ d ∈ pre, d.observer ≠ obs) ∧
        (RemoveObserver e obs).1.registry = pre ++ post ∧
        (RemoveObserver e obs).2 =
          [EngineEvent.limitsChanged (sumMin (pre ++ post)) (sumPad (pre ++ post))] ∧
        ∀ ev ∈ (RemoveObserver e obs).2, isBitrateUpdatedEvent ev = false) := by
  constructor
  · intro h
    simp [RemoveObserver, h]
  · intro h
    obtain ⟨pre, c, post, hr, hco, hpre, herase⟩ := erase_split e.registry obs h
    refine ⟨pre, c, post, hr, hco, hpre, ?_, ?_, ?_⟩
    · simp only [RemoveObserver, h, if_true]
      exact herase
    · simp only [RemoveObserver, h, if_true]
      rw [herase]
    · intro ev hev
      simp only [RemoveObserver, h, if_true, List.mem_singleton] at hev
      rw [hev]
      rfl

/-- Witness for C8: removing the present handle 1 from the fixture engine. -/
theorem removeObserver_no_reallocation_witness :
    ∃ pre c post, engFix.registry = pre ++ c :: post ∧ c.observer = 1 ∧
      (∀ d ∈ pre, d.observer ≠ 1) ∧
      (RemoveObserver engFix 1).1.registry = pre ++ post ∧
      (RemoveObserver engFix 1).2 =
        [EngineEvent.limitsChanged (sumMin (pre ++ post)) (sumPad (pre ++ post))] ∧
      ∀ ev ∈ (RemoveObserver engFix 1).2, isBitrateUpdatedEvent ev = false :=
  (removeObserver_no_reallocation engFix 1).2 (by decide)

/-! ### Claim C10 -/

/-- C10: a newly constructed `ObserverConfig` carries the sentinel `-1` in
`allocated_bitrate_bps` (a signed value distinct from every real allocation,
which is a natural number) and `media_ratio = 1.0`; consequently the
hysteresis logic never mistakes a fresh observer for a paused one - its
effective minimum is the plain `min_bitrate_bps`, uninflated. -/
theorem fresh_observer_config_state (observer minB maxB padUp : Nat) (enforce : Bool)
    (track : String) :
    (mkObserverConfig observer minB maxB padUp enforce track).allocated_bitrate_bps = -1 ∧
    ObserverConfig.media_ratio (mkObserverConfig observer minB maxB padUp enforce track)
      = 1 ∧
    (∀ a : Nat, (mkObserverConfig observer minB maxB padUp enforce
      track).allocated_bitrate_bps ≠ (a : Int)) ∧
    MinBitrateWithHysteresis (mkObserverConfig observer minB maxB padUp enforce track)
      = minB := by
  refine ⟨rfl, rfl, ?_, ?_⟩
  · intro a
    show (-1 : Int) ≠ (a : Int)
    omega
  · unfold MinBitrateWithHysteresis mkObserverConfig
    norm_num

end BitrateAllocator
